import Mathlib

/-!
Shallow embedding of `custom_base64_hangul.py`: a reversible textual encoding
that maps bytes through standard base64 and then wraps each base64 character
(or padding character) in a delimited token `뿡 ... 뽕` whose content lists,
in MSB-to-LSB order, the Hangul symbols of the set bits of the character's
6-bit index.  Strings are modelled as `List Char`, bytes as `Nat` values
(with `< 256` hypotheses where relevant), and Python exceptions
(`ValueError` / `binascii.Error`) as `none` in `Option` results.
-/

/-- Symbol table, MSB to LSB (bits 5..0): `HANGUL_BITS` from the source. -/
def HANGUL_BITS : List Char := ['낑', '깡', '삐', '앙', '버', '거']

/-- The 64-character base64 alphabet, `BASE64_ALPHABET` from the source. -/
def BASE64_ALPHABET : List Char :=
  ['A', 'B', 'C', 'D', 'E', 'F', 'G', 'H', 'I', 'J', 'K', 'L', 'M',
   'N', 'O', 'P', 'Q', 'R', 'S', 'T', 'U', 'V', 'W', 'X', 'Y', 'Z',
   'a', 'b', 'c', 'd', 'e', 'f', 'g', 'h', 'i', 'j', 'k', 'l', 'm',
   'n', 'o', 'p', 'q', 'r', 's', 't', 'u', 'v', 'w', 'x', 'y', 'z',
   '0', '1', '2', '3', '4', '5', '6', '7', '8', '9', '+', '/']

/-- Token start delimiter `START_DELIM`. -/
def START_DELIM : Char := '뿡'

/-- Token end delimiter `END_DELIM`. -/
def END_DELIM : Char := '뽕'

/-- Padding marker placed between delimiters, `PADDING_MARKER`. -/
def PADDING_MARKER : Char := '='

/-- Lookup `BASE64_ALPHABET[i]` (the index is always `< 64` where used). -/
def sextetChar (i : Nat) : Char := BASE64_ALPHABET.getD i 'A'

/-- Modelled from the spec: CPython `base64.b64encode` restricted to this use,
the standard RFC 4648 base64 encoding of a byte sequence, 3 bytes to 4
characters with `=` padding for a 1- or 2-byte tail. -/
def base64Encode : List Nat → List Char
  | a :: b :: c :: rest =>
      sextetChar (a / 4) :: sextetChar (a % 4 * 16 + b / 16) ::
        sextetChar (b % 16 * 4 + c / 64) :: sextetChar (c % 64) ::
        base64Encode rest
  | [a, b] => [sextetChar (a / 4), sextetChar (a % 4 * 16 + b / 16),
               sextetChar (b % 16 * 4), '=']
  | [a] => [sextetChar (a / 4), sextetChar (a % 4 * 16), '=', '=']
  | [] => []

/-- The Hangul symbols for the set bits of `idx`, MSB first: the `present`
list built by the `for i, hangul in enumerate(HANGUL_BITS)` loop. -/
def presentHanguls (idx : Nat) : List Char :=
  (HANGUL_BITS.enum.filter (fun p => (idx >>> (5 - p.1)) &&& 1 == 1)).map Prod.snd

/-- One token of the encoder output for one base64 character: `'뿡=뽕'` for
padding, otherwise `뿡 + present hanguls + 뽕`.  `none` models the
`ValueError` of `BASE64_ALPHABET.index(ch)` when `ch` is not in the
alphabet (unreachable for real base64 output). -/
def tokenFor (ch : Char) : Option (List Char) :=
  if ch = '=' then some [START_DELIM, PADDING_MARKER, END_DELIM]
  else
    match BASE64_ALPHABET.findIdx? (· == ch) with
    | none => none
    | some idx => some (START_DELIM :: presentHanguls idx ++ [END_DELIM])

/-- The `out` list of the encoder: one token per base64 character. -/
def tokensListFor : List Char → Option (List (List Char))
  | [] => some []
  | ch :: rest =>
    match tokenFor ch, tokensListFor rest with
    | some t, some ts => some (t :: ts)
    | _, _ => none

/-- The encoder's token list before the final `''.join(out)`. -/
def encodeTokens (data : List Nat) : Option (List (List Char)) :=
  tokensListFor (base64Encode data)

/-- Function `bytes_to_custom_tokens` from the source: base64-encode, emit one token
per character, join. -/
def bytes_to_custom_tokens (data : List Nat) : Option (List Char) :=
  Option.map List.flatten (encodeTokens data)

/-- Model of `token_str.find(END_DELIM, i)`: split off everything before the first
`END_DELIM` together with the remainder after it; `none` when no
`END_DELIM` occurs. -/
def findEnd : List Char → Option (List Char × List Char)
  | [] => none
  | c :: rest =>
    if c = END_DELIM then some ([], rest)
    else
      match findEnd rest with
      | none => none
      | some (content, r) => some (c :: content, r)

/-- The reconstructed 6-bit index of a token content: for each symbol-table
entry in MSB-to-LSB order, shift and set the low bit when the entry occurs
anywhere in the content (`idx <<= 1; if hangul in content: idx |= 1`). -/
def bitIdx (content : List Char) : Nat :=
  HANGUL_BITS.foldl (fun idx hangul => idx * 2 + if hangul ∈ content then 1 else 0) 0

/-- The decoder's scanning loop (`while i < n`), with the remaining suffix of
the input as the cursor state and the list length as fuel (the fuel is
never exhausted: each token consumes at least two characters). -/
def decodeLoop : Nat → List Char → Option (List Char)
  | _, [] => some []
  | 0, _ :: _ => none
  | fuel + 1, c :: rest =>
    if c = START_DELIM then
      match findEnd rest with
      | none => none
      | some (content, rest2) =>
        if content = [PADDING_MARKER] then
          Option.map (fun cs => '=' :: cs) (decodeLoop fuel rest2)
        else if ∀ ch ∈ content, ch ∈ HANGUL_BITS then
          Option.map (fun cs => sextetChar (bitIdx content) :: cs) (decodeLoop fuel rest2)
        else none
    else none

/-- The list `b64_chars` accumulated by the decoder scan, or `none` on a
`ValueError` (missing start delimiter, unterminated token, foreign symbol). -/
def parseTokens (l : List Char) : Option (List Char) :=
  decodeLoop l.length l

/-- Index of a character in the base64 alphabet (used only on characters
validated to be alphabet members). -/
def charIdx (c : Char) : Nat := BASE64_ALPHABET.findIdx (· == c)

/-- Membership test in the base64 alphabet. -/
def isB64Char (c : Char) : Bool := BASE64_ALPHABET.contains c

/-- Modelled from the spec: the quad loop of CPython `binascii.a2b_base64`
in strict mode (what `base64.b64decode(validate=True)` uses on CPython
3.11+), applied to the alphabet indices of the data characters, with `p`
the number of `=` characters following them.  A trailing group of 2 data
characters needs exactly two pads; a trailing group of 3 needs exactly one
pad (the pad completes the quad, and a second pad would be excess data
after it); a trailing group of 1 always fails; pads after a complete quad
never complete anything and are ignored. -/
def a2bLoop : List Nat → Nat → Option (List Nat)
  | a :: b :: c :: d :: rest, p =>
      Option.map
        (fun bs => (a * 4 + b / 16) :: (b % 16 * 16 + c / 4) :: (c % 4 * 64 + d) :: bs)
        (a2bLoop rest p)
  | [], _ => some []
  | [_], _ => none
  | [x, y], p => if p = 2 then some [x * 4 + y / 16] else none
  | [x, y, z], p => if p = 1 then some [x * 4 + y / 16, (y % 16 * 16 + z / 4)] else none

/-- Modelled from the spec: strict-mode `binascii.a2b_base64` on a string of
`ds` data characters followed by `p` pads: a pad with no data character
before it is rejected as leading padding, then the quad loop runs. -/
def a2b_base64 (ds : List Nat) (p : Nat) : Option (List Nat) :=
  if ds.length = 0 ∧ 0 < p then none else a2bLoop ds p

/-- Modelled from the spec: CPython (3.11+) `base64.b64decode(s,
validate=True)`, which is exactly `binascii.a2b_base64(s,
strict_mode=True)` (the older regex pre-check no longer exists).  Strict
mode rejects any character that is neither a pad nor an alphabet member
("Only base64 data is allowed") and any data character occurring after a
pad ("Discontinuous padding not allowed"), so an accepted string is data
characters followed by pads with no bound on the pad count; the two
conjuncts below model those rejections, and `a2b_base64` decides the
rest. -/
def base64DecodeStrict (s : List Char) : Option (List Nat) :=
  if (s.takeWhile (· != '=')).all isB64Char ∧
      (s.dropWhile (· != '=')).all (· == '=') then
    a2b_base64 ((s.takeWhile (· != '=')).map charIdx) (s.dropWhile (· != '=')).length
  else none

/-- Function `custom_tokens_to_bytes` from the source: scan the token stream into
`b64_chars`, then strict base64 decoding; `none` models every raised
`ValueError` / `binascii.Error`. -/
def custom_tokens_to_bytes (token_str : List Char) : Option (List Nat) :=
  match parseTokens token_str with
  | none => none
  | some b64_chars => base64DecodeStrict b64_chars

theorem findEnd_length : ∀ (l content r : List Char), findEnd l = some (content, r) → r.length < l.length := by
  intro l
  induction l with
  | nil => intro content r h; simp [findEnd] at h
  | cons c rest ih =>
    intro content r h
    by_cases hc : c = END_DELIM
    · simp only [findEnd, if_pos hc, Option.some.injEq, Prod.mk.injEq] at h
      obtain ⟨h1, h2⟩ := h
      subst h2
      simp
    · simp only [findEnd, if_neg hc] at h
      cases hfe : findEnd rest with
      | none => rw [hfe] at h; simp at h
      | some pr =>
        obtain ⟨content2, r2⟩ := pr
        rw [hfe] at h
        simp only [Option.some.injEq, Prod.mk.injEq] at h
        obtain ⟨h1, h2⟩ := h
        subst h2
        have hr := ih content2 r2 hfe
        simp only [List.length_cons]
        omega

theorem findEnd_append : ∀ (content rest : List Char), END_DELIM ∉ content →
    findEnd (content ++ END_DELIM :: rest) = some (content, rest) := by
  intro content
  induction content with
  | nil => intro rest h; simp [findEnd]
  | cons c cs ih =>
    intro rest h
    simp only [List.mem_cons, not_or] at h
    have hne : ¬ c = END_DELIM := fun hh => h.1 hh.symm
    simp only [List.cons_append, findEnd, List.append_eq, if_neg hne, ih rest h.2]

theorem findEnd_none : ∀ (l : List Char), END_DELIM ∉ l → findEnd l = none := by
  intro l
  induction l with
  | nil => intro h; rfl
  | cons c cs ih =>
    intro h
    simp only [List.mem_cons, not_or] at h
    have hne : ¬ c = END_DELIM := fun hh => h.1 hh.symm
    simp only [findEnd, if_neg hne, ih h.2]

theorem decodeLoop_fuel : ∀ (fuel fuel' : Nat) (l : List Char), l.length ≤ fuel → l.length ≤ fuel' →
    decodeLoop fuel l = decodeLoop fuel' l := by
  intro fuel
  induction fuel with
  | zero =>
    intro fuel' l h h'
    cases l with
    | nil => cases fuel' <;> rfl
    | cons c rest => simp at h
  | succ f ih =>
    intro fuel' l h h'
    cases l with
    | nil => cases fuel' <;> rfl
    | cons c rest =>
      cases fuel' with
      | zero => simp at h'
      | succ f' =>
        simp only [decodeLoop]
        by_cases hc : c = START_DELIM
        · simp only [hc, if_pos rfl]
          cases hfe : findEnd rest with
          | none => rfl
          | some pr =>
            obtain ⟨content, rest2⟩ := pr
            have hlen : rest2.length < rest.length := findEnd_length rest content rest2 hfe
            simp only [List.length_cons] at h h'
            simp only []
            rw [ih f' rest2 (by omega) (by omega)]
        · simp [hc]

theorem parseTokens_nil : parseTokens [] = some [] := rfl

theorem parseTokens_cons (c : Char) (rest : List Char) :
    parseTokens (c :: rest) =
      if c = START_DELIM then
        match findEnd rest with
        | none => none
        | some (content, rest2) =>
          if content = [PADDING_MARKER] then Option.map (fun cs => '=' :: cs) (parseTokens rest2)
          else if ∀ ch ∈ content, ch ∈ HANGUL_BITS then
            Option.map (fun cs => sextetChar (bitIdx content) :: cs) (parseTokens rest2)
          else none
      else none := by
  show decodeLoop (rest.length + 1) (c :: rest) = _
  simp only [decodeLoop]
  by_cases hc : c = START_DELIM
  · simp only [hc, if_pos rfl]
    cases hfe : findEnd rest with
    | none => rfl
    | some pr =>
      obtain ⟨content, rest2⟩ := pr
      have hlen : rest2.length < rest.length := findEnd_length rest content rest2 hfe
      simp only []
      unfold parseTokens
      rw [decodeLoop_fuel rest.length rest2.length rest2 (by omega) (le_refl _)]
  · simp [hc]

theorem parseTokens_token (body rest : List Char) (hbody : END_DELIM ∉ body) :
    parseTokens (START_DELIM :: (body ++ END_DELIM :: rest)) =
      if body = [PADDING_MARKER] then Option.map (fun cs => '=' :: cs) (parseTokens rest)
      else if ∀ ch ∈ body, ch ∈ HANGUL_BITS then
        Option.map (fun cs => sextetChar (bitIdx body) :: cs) (parseTokens rest)
      else none := by
  rw [parseTokens_cons]
  rw [findEnd_append body rest hbody]
  simp

set_option maxRecDepth 4000

/-- Exhaustive facts about each of the 64 sextet characters and its token. -/
theorem sextet_facts : ∀ k < 64,
    tokenFor (sextetChar k) = some (START_DELIM :: presentHanguls k ++ [END_DELIM]) ∧
    END_DELIM ∉ presentHanguls k ∧
    presentHanguls k ≠ [PADDING_MARKER] ∧
    (∀ c ∈ presentHanguls k, c ∈ HANGUL_BITS) ∧
    bitIdx (presentHanguls k) = k ∧
    sextetChar k ∈ BASE64_ALPHABET ∧
    sextetChar k ≠ '=' ∧
    charIdx (sextetChar k) = k ∧
    isB64Char (sextetChar k) = true := by decide

theorem parse_token_sextet (k : Nat) (hk : k < 64) (rest : List Char) :
    parseTokens (START_DELIM :: (presentHanguls k ++ END_DELIM :: rest)) =
      Option.map (fun cs => sextetChar k :: cs) (parseTokens rest) := by
  obtain ⟨-, hb, hc, hd, he, -⟩ := sextet_facts k hk
  rw [parseTokens_token (presentHanguls k) rest hb, if_neg hc, if_pos hd, he]

theorem parse_token_pad (rest : List Char) :
    parseTokens (START_DELIM :: (PADDING_MARKER :: END_DELIM :: rest)) =
      Option.map (fun cs => '=' :: cs) (parseTokens rest) := by
  have h := parseTokens_token [PADDING_MARKER] rest (by decide)
  simp only [List.cons_append, List.nil_append] at h
  rw [h]
  simp

theorem tokenFor_pad : tokenFor '=' = some [START_DELIM, PADDING_MARKER, END_DELIM] := rfl

theorem parse_encode : ∀ n (data : List Nat), data.length ≤ n → (∀ b ∈ data, b < 256) →
    ∃ ts, tokensListFor (base64Encode data) = some ts ∧
      parseTokens ts.flatten = some (base64Encode data) := by
  intro n
  induction n with
  | zero =>
    intro data h hb
    have : data = [] := List.length_eq_zero.mp (Nat.le_zero.mp h)
    subst this
    exact ⟨[], rfl, rfl⟩
  | succ n ih =>
    intro data h hb
    match data with
    | [] => exact ⟨[], rfl, rfl⟩
    | [a] =>
      have ha : a < 256 := hb a (by simp)
      have h1 : a / 4 < 64 := by omega
      have h2 : a % 4 * 16 < 64 := by omega
      obtain ⟨ht1, -, -, -, -, -⟩ := sextet_facts (a / 4) h1
      obtain ⟨ht2, -, -, -, -, -⟩ := sextet_facts (a % 4 * 16) h2
      refine ⟨[START_DELIM :: presentHanguls (a / 4) ++ [END_DELIM],
               START_DELIM :: presentHanguls (a % 4 * 16) ++ [END_DELIM],
               [START_DELIM, PADDING_MARKER, END_DELIM],
               [START_DELIM, PADDING_MARKER, END_DELIM]], ?_, ?_⟩
      · simp [base64Encode, tokensListFor, ht1, ht2, tokenFor_pad]
      · simp only [base64Encode, List.flatten, List.append_nil, List.cons_append,
          List.nil_append, List.append_assoc, List.singleton_append]
        rw [parse_token_sextet (a / 4) h1, parse_token_sextet (a % 4 * 16) h2,
          parse_token_pad, parse_token_pad, parseTokens_nil]
        rfl
    | [a, b] =>
      have ha : a < 256 := hb a (by simp)
      have hbb : b < 256 := hb b (by simp)
      have h1 : a / 4 < 64 := by omega
      have h2 : a % 4 * 16 + b / 16 < 64 := by omega
      have h3 : b % 16 * 4 < 64 := by omega
      obtain ⟨ht1, -, -, -, -, -⟩ := sextet_facts (a / 4) h1
      obtain ⟨ht2, -, -, -, -, -⟩ := sextet_facts (a % 4 * 16 + b / 16) h2
      obtain ⟨ht3, -, -, -, -, -⟩ := sextet_facts (b % 16 * 4) h3
      refine ⟨[START_DELIM :: presentHanguls (a / 4) ++ [END_DELIM],
               START_DELIM :: presentHanguls (a % 4 * 16 + b / 16) ++ [END_DELIM],
               START_DELIM :: presentHanguls (b % 16 * 4) ++ [END_DELIM],
               [START_DELIM, PADDING_MARKER, END_DELIM]], ?_, ?_⟩
      · simp [base64Encode, tokensListFor, ht1, ht2, ht3, tokenFor_pad]
      · simp only [base64Encode, List.flatten, List.append_nil, List.cons_append,
          List.nil_append, List.append_assoc, List.singleton_append]
        rw [parse_token_sextet (a / 4) h1, parse_token_sextet (a % 4 * 16 + b / 16) h2,
          parse_token_sextet (b % 16 * 4) h3, parse_token_pad, parseTokens_nil]
        rfl
    | a :: b :: c :: rest =>
      have ha : a < 256 := hb a (by simp)
      have hbb : b < 256 := hb b (by simp)
      have hc : c < 256 := hb c (by simp)
      have h1 : a / 4 < 64 := by omega
      have h2 : a % 4 * 16 + b / 16 < 64 := by omega
      have h3 : b % 16 * 4 + c / 64 < 64 := by omega
      have h4 : c % 64 < 64 := by omega
      obtain ⟨ht1, -, -, -, -, -⟩ := sextet_facts (a / 4) h1
      obtain ⟨ht2, -, -, -, -, -⟩ := sextet_facts (a % 4 * 16 + b / 16) h2
      obtain ⟨ht3, -, -, -, -, -⟩ := sextet_facts (b % 16 * 4 + c / 64) h3
      obtain ⟨ht4, -, -, -, -, -⟩ := sextet_facts (c % 64) h4
      obtain ⟨ts, hts, hparse⟩ := ih rest (by simp at h; omega) (fun x hx => hb x (by simp [hx]))
      refine ⟨(START_DELIM :: presentHanguls (a / 4) ++ [END_DELIM]) ::
               (START_DELIM :: presentHanguls (a % 4 * 16 + b / 16) ++ [END_DELIM]) ::
               (START_DELIM :: presentHanguls (b % 16 * 4 + c / 64) ++ [END_DELIM]) ::
               (START_DELIM :: presentHanguls (c % 64) ++ [END_DELIM]) :: ts, ?_, ?_⟩
      · simp [base64Encode, tokensListFor, ht1, ht2, ht3, ht4, hts]
      · simp only [base64Encode, List.flatten, List.cons_append, List.nil_append,
          List.append_assoc, List.singleton_append]
        have hflat : ts.flatten = List.flatten ts := rfl
        rw [parse_token_sextet (a / 4) h1, parse_token_sextet (a % 4 * 16 + b / 16) h2,
          parse_token_sextet (b % 16 * 4 + c / 64) h3, parse_token_sextet (c % 64) h4,
          hparse]
        rfl

theorem mem_of_isB64Char (c : Char) (h : isB64Char c = true) : c ∈ BASE64_ALPHABET := by
  simpa [isB64Char] using h

theorem isB64Char_ne_pad (c : Char) (h : isB64Char c = true) : (c != '=') = true := by
  have hm := mem_of_isB64Char c h
  have : ∀ x ∈ BASE64_ALPHABET, (x != '=') = true := by decide
  exact this c hm

theorem sextetChar_mem (k : Nat) : sextetChar k ∈ BASE64_ALPHABET := by
  by_cases hk : k < 64
  · exact (sextet_facts k hk).2.2.2.2.2.1
  · have hlen : BASE64_ALPHABET.length = 64 := rfl
    unfold sextetChar
    rw [List.getD_eq_default]
    · decide
    · omega

theorem sextetChar_isB64 (k : Nat) : isB64Char (sextetChar k) = true := by
  have h := sextetChar_mem k
  have : ∀ c ∈ BASE64_ALPHABET, isB64Char c = true := by decide
  exact this _ h

theorem decodeStrict_quad (c1 c2 c3 c4 : Char) (s : List Char)
    (h1 : isB64Char c1 = true) (h2 : isB64Char c2 = true)
    (h3 : isB64Char c3 = true) (h4 : isB64Char c4 = true)
    (hlead : s.takeWhile (· != '=') = [] → s.dropWhile (· != '=') = []) :
    base64DecodeStrict (c1 :: c2 :: c3 :: c4 :: s) =
      Option.map (fun bs => (charIdx c1 * 4 + charIdx c2 / 16) ::
        (charIdx c2 % 16 * 16 + charIdx c3 / 4) ::
        (charIdx c3 % 4 * 64 + charIdx c4) :: bs) (base64DecodeStrict s) := by
  have e1 := isB64Char_ne_pad c1 h1
  have e2 := isB64Char_ne_pad c2 h2
  have e3 := isB64Char_ne_pad c3 h3
  have e4 := isB64Char_ne_pad c4 h4
  simp only [base64DecodeStrict, List.takeWhile_cons, List.dropWhile_cons,
    e1, e2, e3, e4, if_true, List.all_cons, h1, h2, h3, h4, Bool.true_and,
    List.map_cons]
  by_cases hcond : (s.takeWhile (· != '=')).all isB64Char = true ∧
      (s.dropWhile (· != '=')).all (· == '=') = true
  · rw [if_pos hcond, if_pos hcond]
    have hwrapR : ¬(((s.takeWhile (· != '=')).map charIdx).length = 0 ∧
        0 < (s.dropWhile (· != '=')).length) := by
      rintro ⟨hz, hpos⟩
      simp only [List.length_map] at hz
      rw [hlead (List.length_eq_zero.mp hz)] at hpos
      simp at hpos
    have hwrapL : ¬((charIdx c1 :: charIdx c2 :: charIdx c3 :: charIdx c4 ::
        (s.takeWhile (· != '=')).map charIdx).length = 0 ∧
        0 < (s.dropWhile (· != '=')).length) := by
      rintro ⟨hz, hpos⟩
      simp at hz
    simp only [a2b_base64, if_neg hwrapL, if_neg hwrapR, a2bLoop]
  · rw [if_neg hcond, if_neg hcond]
    rfl

theorem decodeStrict_two_pads (c1 c2 : Char)
    (h1 : isB64Char c1 = true) (h2 : isB64Char c2 = true) :
    base64DecodeStrict [c1, c2, '=', '='] = some [charIdx c1 * 4 + charIdx c2 / 16] := by
  have e1 := isB64Char_ne_pad c1 h1
  have e2 := isB64Char_ne_pad c2 h2
  simp [base64DecodeStrict, List.takeWhile_cons, List.dropWhile_cons, e1, e2, h1, h2,
    a2b_base64, a2bLoop]

theorem decodeStrict_one_pad (c1 c2 c3 : Char)
    (h1 : isB64Char c1 = true) (h2 : isB64Char c2 = true) (h3 : isB64Char c3 = true) :
    base64DecodeStrict [c1, c2, c3, '='] =
      some [charIdx c1 * 4 + charIdx c2 / 16, charIdx c2 % 16 * 16 + charIdx c3 / 4] := by
  have e1 := isB64Char_ne_pad c1 h1
  have e2 := isB64Char_ne_pad c2 h2
  have e3 := isB64Char_ne_pad c3 h3
  simp [base64DecodeStrict, List.takeWhile_cons, List.dropWhile_cons, e1, e2, e3, h1, h2, h3,
    a2b_base64, a2bLoop]

theorem decodeStrict_nil : base64DecodeStrict [] = some [] := by decide

theorem encode_no_leading_pad (data : List Nat) :
    (base64Encode data).takeWhile (· != '=') = [] →
      (base64Encode data).dropWhile (· != '=') = [] := by
  match data with
  | [] =>
    intro _
    rfl
  | [a] =>
    intro h
    have hne := isB64Char_ne_pad _ (sextetChar_isB64 (a / 4))
    simp [base64Encode, List.takeWhile_cons, hne] at h
  | [a, b] =>
    intro h
    have hne := isB64Char_ne_pad _ (sextetChar_isB64 (a / 4))
    simp [base64Encode, List.takeWhile_cons, hne] at h
  | a :: b :: c :: rest =>
    intro h
    have hne := isB64Char_ne_pad _ (sextetChar_isB64 (a / 4))
    simp [base64Encode, List.takeWhile_cons, hne] at h

theorem b64_roundtrip : ∀ n (data : List Nat), data.length ≤ n → (∀ b ∈ data, b < 256) →
    base64DecodeStrict (base64Encode data) = some data := by
  intro n
  induction n with
  | zero =>
    intro data h hb
    have : data = [] := List.length_eq_zero.mp (Nat.le_zero.mp h)
    subst this
    exact decodeStrict_nil
  | succ n ih =>
    intro data h hb
    match data with
    | [] => exact decodeStrict_nil
    | [a] =>
      have ha : a < 256 := hb a (by simp)
      obtain ⟨-, -, -, -, -, -, -, hi1, hc1⟩ := sextet_facts (a / 4) (by omega)
      obtain ⟨-, -, -, -, -, -, -, hi2, hc2⟩ := sextet_facts (a % 4 * 16) (by omega)
      show base64DecodeStrict [sextetChar (a / 4), sextetChar (a % 4 * 16), '=', '='] = _
      rw [decodeStrict_two_pads _ _ hc1 hc2, hi1, hi2]
      have : a / 4 * 4 + a % 4 * 16 / 16 = a := by omega
      rw [this]
    | [a, b] =>
      have ha : a < 256 := hb a (by simp)
      have hbb : b < 256 := hb b (by simp)
      obtain ⟨-, -, -, -, -, -, -, hi1, hc1⟩ := sextet_facts (a / 4) (by omega)
      obtain ⟨-, -, -, -, -, -, -, hi2, hc2⟩ := sextet_facts (a % 4 * 16 + b / 16) (by omega)
      obtain ⟨-, -, -, -, -, -, -, hi3, hc3⟩ := sextet_facts (b % 16 * 4) (by omega)
      show base64DecodeStrict [sextetChar (a / 4), sextetChar (a % 4 * 16 + b / 16),
        sextetChar (b % 16 * 4), '='] = _
      rw [decodeStrict_one_pad _ _ _ hc1 hc2 hc3, hi1, hi2, hi3]
      have e1 : a / 4 * 4 + (a % 4 * 16 + b / 16) / 16 = a := by omega
      have e2 : (a % 4 * 16 + b / 16) % 16 * 16 + b % 16 * 4 / 4 = b := by omega
      rw [e1, e2]
    | a :: b :: c :: rest =>
      have ha : a < 256 := hb a (by simp)
      have hbb : b < 256 := hb b (by simp)
      have hcc : c < 256 := hb c (by simp)
      obtain ⟨-, -, -, -, -, -, -, hi1, hc1⟩ := sextet_facts (a / 4) (by omega)
      obtain ⟨-, -, -, -, -, -, -, hi2, hc2⟩ := sextet_facts (a % 4 * 16 + b / 16) (by omega)
      obtain ⟨-, -, -, -, -, -, -, hi3, hc3⟩ := sextet_facts (b % 16 * 4 + c / 64) (by omega)
      obtain ⟨-, -, -, -, -, -, -, hi4, hc4⟩ := sextet_facts (c % 64) (by omega)
      have hih := ih rest (by simp at h; omega) (fun x hx => hb x (by simp [hx]))
      show base64DecodeStrict (sextetChar (a / 4) :: sextetChar (a % 4 * 16 + b / 16) ::
        sextetChar (b % 16 * 4 + c / 64) :: sextetChar (c % 64) :: base64Encode rest) = _
      rw [decodeStrict_quad _ _ _ _ _ hc1 hc2 hc3 hc4 (encode_no_leading_pad rest),
        hih, hi1, hi2, hi3, hi4]
      have e1 : a / 4 * 4 + (a % 4 * 16 + b / 16) / 16 = a := by omega
      have e2 : (a % 4 * 16 + b / 16) % 16 * 16 + (b % 16 * 4 + c / 64) / 4 = b := by omega
      have e3 : (b % 16 * 4 + c / 64) % 4 * 64 + c % 64 = c := by omega
      rw [e1, e2, e3]
      rfl

theorem bitIdx_repr (content : List Char) :
    bitIdx content =
      (if '낑' ∈ content then 32 else 0) + (if '깡' ∈ content then 16 else 0) +
      (if '삐' ∈ content then 8 else 0) + (if '앙' ∈ content then 4 else 0) +
      (if '버' ∈ content then 2 else 0) + (if '거' ∈ content then 1 else 0) := by
  simp only [bitIdx, HANGUL_BITS, List.foldl]
  split_ifs <;> omega

theorem bitIdx_lt_64 (content : List Char) : bitIdx content < 64 := by
  rw [bitIdx_repr]
  split_ifs <;> omega

theorem presentHanguls_sublist (idx : Nat) : (presentHanguls idx).Sublist HANGUL_BITS := by
  unfold presentHanguls
  have h1 := List.filter_sublist (l := HANGUL_BITS.enum)
    (p := fun p => (idx >>> (5 - p.1)) &&& 1 == 1)
  have h2 := h1.map Prod.snd
  rwa [List.enum_map_snd] at h2

theorem a2bLoop_none : ∀ (n : Nat) (l : List Nat) (p : Nat), l.length ≤ n →
    (l.length % 4 = 1 ∨ (l.length % 4 = 2 ∧ p ≠ 2) ∨ (l.length % 4 = 3 ∧ p ≠ 1)) →
    a2bLoop l p = none := by
  intro n
  induction n with
  | zero =>
    intro l p h hbad
    have : l = [] := List.length_eq_zero.mp (Nat.le_zero.mp h)
    subst this
    simp at hbad
  | succ n ih =>
    intro l p h hbad
    match l with
    | [] => simp at hbad
    | [x] => rfl
    | [x, y] =>
      have hp : p ≠ 2 := by
        rcases hbad with h1 | ⟨h1, h2⟩ | ⟨h1, h2⟩ <;> simp_all
      simp [a2bLoop, hp]
    | [x, y, z] =>
      have hp : p ≠ 1 := by
        rcases hbad with h1 | ⟨h1, h2⟩ | ⟨h1, h2⟩ <;> simp_all
      simp [a2bLoop, hp]
    | a :: b :: c :: d :: rest =>
      simp only [List.length_cons] at h hbad
      simp only [a2bLoop]
      have hrest : rest.length % 4 = 1 ∨ (rest.length % 4 = 2 ∧ p ≠ 2) ∨
          (rest.length % 4 = 3 ∧ p ≠ 1) := by
        rcases hbad with h1 | ⟨h1, h2⟩ | ⟨h1, h2⟩
        · left; omega
        · right; left; exact ⟨by omega, h2⟩
        · right; right; exact ⟨by omega, h2⟩
      rw [ih rest p (by omega) hrest]
      rfl

theorem decodeLoop_chars : ∀ (fuel : Nat) (l u : List Char), decodeLoop fuel l = some u →
    ∀ c ∈ u, c = '=' ∨ c ∈ BASE64_ALPHABET := by
  intro fuel
  induction fuel with
  | zero =>
    intro l u h c hc
    cases l with
    | nil =>
      simp only [decodeLoop, Option.some.injEq] at h
      subst h
      simp at hc
    | cons a rest => simp [decodeLoop] at h
  | succ f ih =>
    intro l u h c hc
    cases l with
    | nil =>
      simp only [decodeLoop, Option.some.injEq] at h
      subst h
      simp at hc
    | cons a rest =>
      simp only [decodeLoop] at h
      split at h
      · cases hfe : findEnd rest with
        | none => rw [hfe] at h; simp at h
        | some pr =>
          obtain ⟨content, rest2⟩ := pr
          rw [hfe] at h
          simp only [] at h
          split at h
          · cases hrec : decodeLoop f rest2 with
            | none => rw [hrec] at h; simp at h
            | some u2 =>
              rw [hrec] at h
              simp only [Option.map_some', Option.some.injEq] at h
              subst h
              rcases List.mem_cons.mp hc with hc1 | hc2
              · left; exact hc1
              · exact ih rest2 u2 hrec c hc2
          · split at h
            · cases hrec : decodeLoop f rest2 with
              | none => rw [hrec] at h; simp at h
              | some u2 =>
                rw [hrec] at h
                simp only [Option.map_some', Option.some.injEq] at h
                subst h
                rcases List.mem_cons.mp hc with hc1 | hc2
                · right; rw [hc1]; exact sextetChar_mem _
                · exact ih rest2 u2 hrec c hc2
            · simp at h
      · simp at h

theorem base64Encode_length : ∀ (n : Nat) (data : List Nat), data.length ≤ n →
    (base64Encode data).length = (data.length + 2) / 3 * 4 := by
  intro n
  induction n with
  | zero =>
    intro data h
    have : data = [] := List.length_eq_zero.mp (Nat.le_zero.mp h)
    subst this
    rfl
  | succ n ih =>
    intro data h
    match data with
    | [] => rfl
    | [a] => simp [base64Encode]
    | [a, b] => simp [base64Encode]
    | a :: b :: c :: rest =>
      simp only [List.length_cons] at h
      simp only [base64Encode, List.length_cons, ih rest (by omega)]
      omega

theorem base64Encode_chars : ∀ (n : Nat) (data : List Nat), data.length ≤ n →
    ∀ c ∈ base64Encode data, c = '=' ∨ c ∈ BASE64_ALPHABET := by
  intro n
  induction n with
  | zero =>
    intro data h c hc
    have : data = [] := List.length_eq_zero.mp (Nat.le_zero.mp h)
    subst this
    simp [base64Encode] at hc
  | succ n ih =>
    intro data h c hc
    match data with
    | [] => simp [base64Encode] at hc
    | [a] =>
      simp only [base64Encode, List.mem_cons, List.not_mem_nil, or_false] at hc
      rcases hc with h1 | h1 | h1 | h1 <;> subst h1
      · right; exact sextetChar_mem _
      · right; exact sextetChar_mem _
      · left; rfl
      · left; rfl
    | [a, b] =>
      simp only [base64Encode, List.mem_cons, List.not_mem_nil, or_false] at hc
      rcases hc with h1 | h1 | h1 | h1 <;> subst h1
      · right; exact sextetChar_mem _
      · right; exact sextetChar_mem _
      · right; exact sextetChar_mem _
      · left; rfl
    | a :: b :: c' :: rest =>
      simp only [List.length_cons] at h
      simp only [base64Encode, List.mem_cons] at hc
      rcases hc with h1 | h1 | h1 | h1 | h1
      · subst h1; right; exact sextetChar_mem _
      · subst h1; right; exact sextetChar_mem _
      · subst h1; right; exact sextetChar_mem _
      · subst h1; right; exact sextetChar_mem _
      · exact ih rest (by omega) c h1

theorem tokensListFor_total : ∀ (cs : List Char), (∀ c ∈ cs, c = '=' ∨ c ∈ BASE64_ALPHABET) →
    ∃ ts, tokensListFor cs = some ts := by
  intro cs
  induction cs with
  | nil => intro h; exact ⟨[], rfl⟩
  | cons c rest ih =>
    intro h
    obtain ⟨ts, hts⟩ := ih (fun x hx => h x (List.mem_cons_of_mem c hx))
    have hc := h c (List.mem_cons_self c rest)
    have htok : ∃ t, tokenFor c = some t := by
      rcases hc with h1 | h1
      · subst h1; exact ⟨_, rfl⟩
      · have hall : ∀ x ∈ BASE64_ALPHABET, (tokenFor x).isSome = true := by decide
        exact Option.isSome_iff_exists.mp (hall c h1)
    obtain ⟨t, ht⟩ := htok
    exact ⟨t :: ts, by simp [tokensListFor, ht, hts]⟩

theorem tokensListFor_length : ∀ (cs : List Char) (ts : List (List Char)),
    tokensListFor cs = some ts → ts.length = cs.length := by
  intro cs
  induction cs with
  | nil =>
    intro ts h
    simp only [tokensListFor, Option.some.injEq] at h
    subst h; rfl
  | cons c rest ih =>
    intro ts h
    simp only [tokensListFor] at h
    cases ht : tokenFor c with
    | none => rw [ht] at h; simp at h
    | some t =>
      cases hts : tokensListFor rest with
      | none => rw [ht, hts] at h; simp at h
      | some ts2 =>
        rw [ht, hts] at h
        simp only [Option.some.injEq] at h
        subst h
        simp [ih ts2 hts]

theorem tokensListFor_mem : ∀ (cs : List Char) (ts : List (List Char)),
    tokensListFor cs = some ts → ∀ t ∈ ts, ∃ c, tokenFor c = some t := by
  intro cs
  induction cs with
  | nil =>
    intro ts h t ht
    simp only [tokensListFor, Option.some.injEq] at h
    subst h
    simp at ht
  | cons c rest ih =>
    intro ts h t ht
    simp only [tokensListFor] at h
    cases htok : tokenFor c with
    | none => rw [htok] at h; simp at h
    | some t1 =>
      cases hts : tokensListFor rest with
      | none => rw [htok, hts] at h; simp at h
      | some ts2 =>
        rw [htok, hts] at h
        simp only [Option.some.injEq] at h
        subst h
        rcases List.mem_cons.mp ht with h1 | h1
        · exact ⟨c, by rw [htok, h1]⟩
        · exact ih ts2 hts t h1

theorem tokenFor_shape : ∀ (c : Char) (t : List Char), tokenFor c = some t →
    ∃ content, t = START_DELIM :: content ++ [END_DELIM] ∧
      (content = [PADDING_MARKER] ∨
        (content.Sublist HANGUL_BITS ∧ PADDING_MARKER ∉ content)) := by
  intro c t h
  by_cases hc : c = '='
  · subst hc
    rw [tokenFor_pad] at h
    simp only [Option.some.injEq] at h
    subst h
    exact ⟨[PADDING_MARKER], rfl, Or.inl rfl⟩
  · simp only [tokenFor, if_neg hc] at h
    cases hf : BASE64_ALPHABET.findIdx? (· == c) with
    | none => rw [hf] at h; simp at h
    | some idx =>
      rw [hf] at h
      simp only [Option.some.injEq] at h
      subst h
      refine ⟨presentHanguls idx, rfl, Or.inr ⟨presentHanguls_sublist idx, ?_⟩⟩
      intro hmem
      have hsub := (presentHanguls_sublist idx).subset hmem
      have : PADDING_MARKER ∉ HANGUL_BITS := by decide
      exact this hsub

theorem testBit_helper : ∀ (b0 b1 b2 b3 b4 b5 : Bool), ∀ i < 6,
    ((cond b0 32 0) + (cond b1 16 0) + (cond b2 8 0) + (cond b3 4 0) +
      (cond b4 2 0) + (cond b5 1 0) : Nat).testBit (5 - i) =
      [b0, b1, b2, b3, b4, b5].getD i false := by decide

theorem ite_eq_cond_decide (p : Prop) [Decidable p] (a : Nat) :
    (if p then a else 0) = cond (decide p) a 0 := by
  by_cases h : p <;> simp [h]

theorem bitIdx_testBit (content : List Char) (i : Nat) (hi : i < 6) :
    ((bitIdx content).testBit (5 - i) = true ↔ HANGUL_BITS.getD i 'A' ∈ content) := by
  rw [bitIdx_repr,
    ite_eq_cond_decide _ 32, ite_eq_cond_decide _ 16, ite_eq_cond_decide _ 8,
    ite_eq_cond_decide _ 4, ite_eq_cond_decide _ 2, ite_eq_cond_decide _ 1,
    testBit_helper _ _ _ _ _ _ i hi]
  interval_cases i <;> simp [HANGUL_BITS]

theorem bitIdx_ext (content content' : List Char)
    (h : ∀ x ∈ HANGUL_BITS, (x ∈ content ↔ x ∈ content')) :
    bitIdx content = bitIdx content' := by
  have e0 := h '낑' (by decide)
  have e1 := h '깡' (by decide)
  have e2 := h '삐' (by decide)
  have e3 := h '앙' (by decide)
  have e4 := h '버' (by decide)
  have e5 := h '거' (by decide)
  rw [bitIdx_repr, bitIdx_repr, if_congr e0 rfl rfl, if_congr e1 rfl rfl,
    if_congr e2 rfl rfl, if_congr e3 rfl rfl, if_congr e4 rfl rfl, if_congr e5 rfl rfl]

theorem isB64Char_of_mem (c : Char) (h : c ∈ BASE64_ALPHABET) : isB64Char c = true := by
  simpa [isB64Char] using h

/-- Claim C1: for every byte sequence `b` (including empty), decoding the encoding
of `b` returns `b`: `custom_tokens_to_bytes (bytes_to_custom_tokens b) = b`. -/
theorem decode_encode_roundtrip (data : List Nat) (hdata : ∀ b ∈ data, b < 256) :
    ∃ s, bytes_to_custom_tokens data = some s ∧ custom_tokens_to_bytes s = some data := by
  obtain ⟨ts, hts, hparse⟩ := parse_encode data.length data le_rfl hdata
  refine ⟨ts.flatten, ?_, ?_⟩
  · simp [bytes_to_custom_tokens, encodeTokens, hts]
  · simp only [custom_tokens_to_bytes, hparse]
    exact b64_roundtrip data.length data le_rfl hdata

/-- Witness for C1 at the bytes of `"hello"`. -/
theorem decode_encode_roundtrip_witness :
    ∃ s, bytes_to_custom_tokens [104, 101, 108, 108, 111] = some s ∧
      custom_tokens_to_bytes s = some [104, 101, 108, 108, 111] :=
  decode_encode_roundtrip [104, 101, 108, 108, 111] (by decide)

/-- Claim C10: decoding is deterministic, two runs on equal inputs agree. -/
theorem decode_deterministic (s t : List Char) (h : s = t) :
    custom_tokens_to_bytes s = custom_tokens_to_bytes t := by rw [h]

/-- Witness for C10 on a concrete stream. -/
theorem decode_deterministic_witness :
    custom_tokens_to_bytes ['뿡', '뽕'] = custom_tokens_to_bytes ['뿡', '뽕'] :=
  decode_deterministic ['뿡', '뽕'] ['뿡', '뽕'] rfl

/-- Claim C7: the encoder is total, every byte sequence produces a token string
(the `BASE64_ALPHABET.index` error path is unreachable), and the empty
input encodes to the empty string. -/
theorem encode_total :
    (∀ data : List Nat, ∃ s, bytes_to_custom_tokens data = some s) ∧
    bytes_to_custom_tokens [] = some [] := by
  constructor
  · intro data
    obtain ⟨ts, hts⟩ := tokensListFor_total (base64Encode data)
      (base64Encode_chars data.length data le_rfl)
    exact ⟨ts.flatten, by simp [bytes_to_custom_tokens, encodeTokens, hts]⟩
  · rfl

/-- Claim C6: `encode b` emits `ceil (len b / 3) * 4` tokens for nonempty `b`,
and no tokens for empty `b`. -/
theorem encode_token_count (data : List Nat) (ts : List (List Char))
    (h : encodeTokens data = some ts) :
    (0 < data.length → ts.length = (data.length + 2) / 3 * 4) ∧
    (data = [] → ts.length = 0) := by
  have hlen : ts.length = (base64Encode data).length := tokensListFor_length _ _ h
  rw [base64Encode_length data.length data le_rfl] at hlen
  constructor
  · intro _
    exact hlen
  · intro hd
    subst hd
    simpa using hlen

/-- Witness for C6 at the single byte `102`. -/
theorem encode_token_count_witness :
    ([['뿡', '깡', '삐', '거', '뽕'], ['뿡', '낑', '뽕'], ['뿡', '=', '뽕'],
      ['뿡', '=', '뽕']] : List (List Char)).length =
      (([102] : List Nat).length + 2) / 3 * 4 :=
  (encode_token_count [102]
    [['뿡', '깡', '삐', '거', '뽕'], ['뿡', '낑', '뽕'], ['뿡', '=', '뽕'], ['뿡', '=', '뽕']]
    (by decide)).1 (by decide)

/-- Claim C8: every emitted token is `START ++ content ++ END` whose content is
either exactly the padding marker or a subsequence of the symbol table in
canonical order (each symbol at most once) never containing the padding
marker. -/
theorem encode_token_shape (data : List Nat) (ts : List (List Char))
    (h : encodeTokens data = some ts) :
    ∀ t ∈ ts, ∃ content, t = START_DELIM :: content ++ [END_DELIM] ∧
      (content = [PADDING_MARKER] ∨
        (content.Sublist HANGUL_BITS ∧ PADDING_MARKER ∉ content)) := by
  intro t ht
  obtain ⟨c, hc⟩ := tokensListFor_mem _ _ h t ht
  exact tokenFor_shape c t hc

/-- Witness for C8 at the first token of `encode [102]`. -/
theorem encode_token_shape_witness :
    ∃ content, (['뿡', '깡', '삐', '거', '뽕'] : List Char) =
        START_DELIM :: content ++ [END_DELIM] ∧
      (content = [PADDING_MARKER] ∨
        (content.Sublist HANGUL_BITS ∧ PADDING_MARKER ∉ content)) :=
  encode_token_shape [102]
    [['뿡', '깡', '삐', '거', '뽕'], ['뿡', '낑', '뽕'], ['뿡', '=', '뽕'], ['뿡', '=', '뽕']]
    (by decide) ['뿡', '깡', '삐', '거', '뽕'] (by decide)

/-- Claim C3: at any scan position, a character other than START fails the decode;
a consumed START with no END at or after the cursor fails the decode; the
empty string decodes to the empty byte sequence.  Stated both for the scan
loop at an arbitrary cursor state and for the whole decoder. -/
theorem decode_boundary_errors :
    (∀ (fuel : Nat) (c : Char) (rest : List Char), c ≠ START_DELIM →
      decodeLoop (fuel + 1) (c :: rest) = none) ∧
    (∀ (fuel : Nat) (rest : List Char), END_DELIM ∉ rest →
      decodeLoop (fuel + 1) (START_DELIM :: rest) = none) ∧
    (∀ (c : Char) (rest : List Char), c ≠ START_DELIM →
      custom_tokens_to_bytes (c :: rest) = none) ∧
    (∀ rest : List Char, END_DELIM ∉ rest →
      custom_tokens_to_bytes (START_DELIM :: rest) = none) ∧
    custom_tokens_to_bytes [] = some [] := by
  have h1 : ∀ (fuel : Nat) (c : Char) (rest : List Char), c ≠ START_DELIM →
      decodeLoop (fuel + 1) (c :: rest) = none := by
    intro fuel c rest hc
    simp [decodeLoop, hc]
  have h2 : ∀ (fuel : Nat) (rest : List Char), END_DELIM ∉ rest →
      decodeLoop (fuel + 1) (START_DELIM :: rest) = none := by
    intro fuel rest hr
    simp [decodeLoop, findEnd_none rest hr]
  refine ⟨h1, h2, ?_, ?_, rfl⟩
  · intro c rest hc
    simp only [custom_tokens_to_bytes, parseTokens, List.length_cons,
      h1 rest.length c rest hc]
  · intro rest hr
    simp only [custom_tokens_to_bytes, parseTokens, List.length_cons,
      h2 rest.length rest hr]

/-- Witness for C3 at concrete malformed and empty streams. -/
theorem decode_boundary_errors_witness :
    decodeLoop 1 ['x'] = none ∧ decodeLoop 1 [START_DELIM, 'x'] = none ∧
    custom_tokens_to_bytes ['x'] = none ∧
    custom_tokens_to_bytes [START_DELIM, '낑'] = none ∧
    custom_tokens_to_bytes [] = some [] :=
  ⟨decode_boundary_errors.1 0 'x' [] (by decide),
   decode_boundary_errors.2.1 0 ['x'] (by decide),
   decode_boundary_errors.2.2.1 'x' [] (by decide),
   decode_boundary_errors.2.2.2.1 ['낑'] (by decide),
   decode_boundary_errors.2.2.2.2⟩

/-- Claim C4: a token content that is not exactly the padding marker and contains
any symbol outside the symbol table fails the decode; a content of exactly
the padding marker records a padding unit and continues. -/
theorem decode_token_content_validation :
    (∀ (content rest : List Char), END_DELIM ∉ content → content ≠ [PADDING_MARKER] →
      (∃ ch ∈ content, ch ∉ HANGUL_BITS) →
      custom_tokens_to_bytes (START_DELIM :: (content ++ END_DELIM :: rest)) = none) ∧
    (∀ rest : List Char,
      parseTokens (START_DELIM :: (PADDING_MARKER :: END_DELIM :: rest)) =
        Option.map (fun cs => '=' :: cs) (parseTokens rest)) := by
  constructor
  · intro content rest hend hpad hforeign
    obtain ⟨ch, hch, hnot⟩ := hforeign
    have hp := parseTokens_token content rest hend
    rw [if_neg hpad, if_neg (fun hall => hnot (hall ch hch))] at hp
    simp only [custom_tokens_to_bytes, hp]
  · exact parse_token_pad

/-- Witness for C4: a foreign symbol inside a token, and a padding token. -/
theorem decode_token_content_validation_witness :
    custom_tokens_to_bytes [START_DELIM, 'A', END_DELIM] = none ∧
    parseTokens [START_DELIM, PADDING_MARKER, END_DELIM] =
      Option.map (fun cs => '=' :: cs) (parseTokens []) :=
  ⟨decode_token_content_validation.1 ['A'] [] (by decide) (by decide)
      ⟨'A', by decide, by decide⟩,
   decode_token_content_validation.2 []⟩

/-- Claim C5: a token whose content lies in the symbol table records the alphabet
character at the reconstructed index; bit `5 - i` of that index is set iff
symbol-table entry `i` occurs in the content; the index depends only on
which symbols occur (not position, order or repetition); empty content
gives index 0, the character `'A'`. -/
theorem decode_token_bit_reconstruction :
    (∀ (content rest : List Char), (∀ ch ∈ content, ch ∈ HANGUL_BITS) →
      parseTokens (START_DELIM :: (content ++ END_DELIM :: rest)) =
        Option.map (fun cs => sextetChar (bitIdx content) :: cs) (parseTokens rest)) ∧
    (∀ (content : List Char) (i : Nat), i < 6 →
      ((bitIdx content).testBit (5 - i) = true ↔ HANGUL_BITS.getD i 'A' ∈ content)) ∧
    (∀ content content' : List Char,
      (∀ x ∈ HANGUL_BITS, (x ∈ content ↔ x ∈ content')) →
      bitIdx content = bitIdx content') ∧
    bitIdx [] = 0 ∧ sextetChar 0 = 'A' := by
  refine ⟨?_, bitIdx_testBit, bitIdx_ext, by decide, rfl⟩
  intro content rest hall
  have hend : END_DELIM ∉ content := by
    intro hmem
    exact (by decide : END_DELIM ∉ HANGUL_BITS) (hall _ hmem)
  have hpad : content ≠ [PADDING_MARKER] := by
    intro heq
    subst heq
    exact (by decide : PADDING_MARKER ∉ HANGUL_BITS) (hall PADDING_MARKER (by simp))
  rw [parseTokens_token content rest hend, if_neg hpad, if_pos hall]

/-- Witness for C5 at the content `['깡', '거']` (bits 4 and 0, index 17). -/
theorem decode_token_bit_reconstruction_witness :
    parseTokens [START_DELIM, '깡', '거', END_DELIM] =
      Option.map (fun cs => sextetChar (bitIdx ['깡', '거']) :: cs) (parseTokens []) ∧
    ((bitIdx ['깡', '거']).testBit 5 = true ↔ '낑' ∈ (['깡', '거'] : List Char)) ∧
    bitIdx ['거', '깡', '깡'] = bitIdx ['깡', '거'] :=
  ⟨decode_token_bit_reconstruction.1 ['깡', '거'] [] (by decide),
   decode_token_bit_reconstruction.2.1 ['깡', '거'] 0 (by decide),
   decode_token_bit_reconstruction.2.2.1 ['거', '깡', '깡'] ['깡', '거'] (by decide)⟩

/-- Claim C9: the reconstructed index of every token is below 64, so the alphabet
lookup is in bounds; every character recorded by the scan is `'='` or an
alphabet member, and the invalid-character case of the final strict decode
is unreachable. -/
theorem decode_index_in_bounds :
    (∀ content : List Char, bitIdx content < 64) ∧
    (∀ s u : List Char, parseTokens s = some u → ∀ c ∈ u, c = '=' ∨ c ∈ BASE64_ALPHABET) ∧
    (∀ s u : List Char, parseTokens s = some u →
      (u.takeWhile (· != '=')).all isB64Char = true) := by
  refine ⟨bitIdx_lt_64, ?_, ?_⟩
  · intro s u h
    exact decodeLoop_chars s.length s u h
  · intro s u h
    rw [List.all_eq_true]
    intro c hc
    have hmem : c ∈ u := (List.takeWhile_prefix (p := fun x => x != '=')).sublist.subset hc
    have hpred : (c != '=') = true := List.mem_takeWhile_imp (p := fun x => x != '=') (l := u) hc
    rcases decodeLoop_chars s.length s u h c hmem with h1 | h1
    · subst h1
      simp at hpred
    · exact isB64Char_of_mem c h1

/-- Witness for C9 at the stream of one token for bit 5 (character `'g'`). -/
theorem decode_index_in_bounds_witness :
    bitIdx ['낑'] < 64 ∧ (('g' : Char) = '=' ∨ ('g' : Char) ∈ BASE64_ALPHABET) ∧
    ((['g'] : List Char).takeWhile (· != '=')).all isB64Char = true :=
  ⟨decode_index_in_bounds.1 ['낑'],
   decode_index_in_bounds.2.1 ['뿡', '낑', '뽕'] ['g'] (by decide) 'g' (by decide),
   decode_index_in_bounds.2.2 ['뿡', '낑', '뽕'] ['g'] (by decide)⟩

/-- Claim C2 counterexample: the well-formed stream of four empty-content tokens
followed by one padding token reconstructs the underlying string
`"AAAA="`, whose total length 5 is not a multiple of 4, yet the decoder
returns bytes `[0, 0, 0]` instead of failing; with three padding tokens
instead it reconstructs `"AAAA==="`, whose padding is a suffix of length
3 (not 1 or 2), and the decoder again returns `[0, 0, 0]`. -/
theorem decode_invalid_underlying_counterexample :
    (parseTokens ['뿡', '뽕', '뿡', '뽕', '뿡', '뽕', '뿡', '뽕', '뿡', '=', '뽕'] =
        some ['A', 'A', 'A', 'A', '='] ∧
      (['A', 'A', 'A', 'A', '='] : List Char).length % 4 = 1 ∧
      custom_tokens_to_bytes ['뿡', '뽕', '뿡', '뽕', '뿡', '뽕', '뿡', '뽕', '뿡', '=', '뽕'] =
        some [0, 0, 0]) ∧
    (parseTokens ['뿡', '뽕', '뿡', '뽕', '뿡', '뽕', '뿡', '뽕',
        '뿡', '=', '뽕', '뿡', '=', '뽕', '뿡', '=', '뽕'] =
      some ['A', 'A', 'A', 'A', '=', '=', '='] ∧
      ((['A', 'A', 'A', 'A', '=', '=', '='] : List Char).dropWhile (· != '=')).length = 3 ∧
      custom_tokens_to_bytes ['뿡', '뽕', '뿡', '뽕', '뿡', '뽕', '뿡', '뽕',
        '뿡', '=', '뽕', '뿡', '=', '뽕', '뿡', '=', '뽕'] = some [0, 0, 0]) := by decide

/-- Claim C2 (amended): with `d` the count of data characters before the first pad
and `p` the count of characters from the first pad on, the decode of a
scanned stream fails whenever the reconstructed string breaks the
pad-suffix shape (a character from the first pad on that is not a pad,
or a data character outside the alphabet), or `d % 4 = 1`, or `d % 4 = 2`
without exactly two pads, or `d % 4 = 3` without exactly one pad, or
`d = 0` with pads present; neither a total length that is not a multiple
of 4 nor a pad suffix longer than 2 forces failure by itself. -/
theorem decode_rejects_invalid_underlying (s u : List Char)
    (h : parseTokens s = some u)
    (hviol :
      ¬((u.takeWhile (· != '=')).all isB64Char = true ∧
        (u.dropWhile (· != '=')).all (· == '=') = true) ∨
      (u.takeWhile (· != '=')).length % 4 = 1 ∨
      ((u.takeWhile (· != '=')).length % 4 = 2 ∧ (u.dropWhile (· != '=')).length ≠ 2) ∨
      ((u.takeWhile (· != '=')).length % 4 = 3 ∧ (u.dropWhile (· != '=')).length ≠ 1) ∨
      ((u.takeWhile (· != '=')).length = 0 ∧ (u.dropWhile (· != '=')).length ≠ 0)) :
    custom_tokens_to_bytes s = none := by
  simp only [custom_tokens_to_bytes, h]
  by_cases hcond : ((u.takeWhile (· != '=')).all isB64Char = true ∧
      (u.dropWhile (· != '=')).all (· == '=') = true)
  · have hmap : ((u.takeWhile (· != '=')).map charIdx).length =
        (u.takeWhile (· != '=')).length := List.length_map _ _
    simp only [base64DecodeStrict, if_pos hcond, a2b_base64]
    by_cases hw : (((u.takeWhile (· != '=')).map charIdx).length = 0 ∧
        0 < (u.dropWhile (· != '=')).length)
    · rw [if_pos hw]
    · rw [if_neg hw]
      rcases hviol with hv | hv | hv | hv | hv
      · exact absurd hcond hv
      · exact a2bLoop_none _ _ _ le_rfl (by rw [hmap]; left; exact hv)
      · exact a2bLoop_none _ _ _ le_rfl (by rw [hmap]; right; left; exact hv)
      · exact a2bLoop_none _ _ _ le_rfl (by rw [hmap]; right; right; exact hv)
      · exact absurd ⟨by rw [hmap]; exact hv.1, Nat.pos_of_ne_zero hv.2⟩ hw
  · simp only [base64DecodeStrict, if_neg hcond]

/-- Witness for the amended C2: a single data token reconstructs `"A"`,
one data character, which is 1 more than a multiple of 4. -/
theorem decode_rejects_invalid_underlying_witness :
    custom_tokens_to_bytes ['뿡', '뽕'] = none :=
  decode_rejects_invalid_underlying ['뿡', '뽕'] ['A'] (by decide)
    (Or.inr (Or.inl (by decide)))
